import Mathlib

/-!
Shallow embedding of the pipeline engine of `reto_virgin_mobile`
(`src/pipeline_engine/PipelineEngine.py`, `pipeline_loader.py`,
`NodesEngine.py`, `NodesRegistry.py`) together with proofs of the
behavioural properties stated in the specification.

Python values flowing through the engine are abstracted by a type
parameter `V`; `Option` marks spots where Python `None` is
distinguished from real payloads (the argument of `run`, buffer
lookups, optional attributes).
-/

namespace PipelineSpec

/-- Result of the `run` method of a node, mirroring the four shapes the
engine dispatches on (`PipelineEngine.run_node`, lines 64-87):
Python `None`, a `list` of `(input_name, value)` tuples, a `dict`,
or any other bare value. -/
inductive RunResult (V : Type) where
  | pyNone : RunResult V
  | pyList (items : List (String × V)) : RunResult V
  | pyDict (entries : List (String × V)) : RunResult V
  | bare (v : V) : RunResult V

/-- A node as the engine sees it (`NodesEngine.Node` plus the optional
attributes read with `getattr`): a name, the optional `required_inputs`
list, the wired children (`outputs`, identified by their unique names),
the `run` method, the `defer_output` flag and the optional `finalize`
method (`none` when the attribute is absent; `some r` when present and
returning `r`, where `r = none` models a Python `None` return). -/
structure Node (V : Type) where
  name : String
  required_inputs : Option (List String)
  outputs : List String
  run : Option (List (String × V)) → RunResult V
  defer_output : Bool
  finalize : Option (Option (List (String × V)))

/-- Python truthiness of `getattr(node, "required_inputs", None)`: falsy when the attribute
is absent or the list is empty (`if not required:` on line 38). -/
def falsyReq : Option (List String) → Bool
  | none => true
  | some l => l.isEmpty

/-- The engine attribute `node_input_buffer`: node name → input name → stored
value (`defaultdict(dict)`, all dictionaries initially empty). -/
def Buffers (V : Type) := String → String → Option V

/-- The empty buffer map. -/
def emptyBuffers (V : Type) : Buffers V := fun _ _ => none

/-- Lines 33-35 of `run_node`: if the delivery carries an input name,
store the value under it in the buffer of the target node; otherwise leave
every buffer unchanged. -/
def storePhase (buf : Buffers V) (nodeName : String)
    (input_name : Option String) (input_value : V) : Buffers V :=
  match input_name with
  | none => buf
  | some k => fun n' k' =>
      if n' = nodeName then (if k' = k then some input_value else buf n' k')
      else buf n' k'

/-- Line 61 of `run_node`: `self.node_input_buffer[node.name].clear()`. -/
def clearPhase (buf : Buffers V) (nodeName : String) : Buffers V :=
  fun n' k' => if n' = nodeName then none else buf n' k'

/-- Lines 74-87 of `run_node`: the deliveries issued while propagating a
non-`None` result to the children, as `(child, input_name, value)`
triples.  A `list` result submits one job per `(name, value)` pair per
child; a `dict` result delivers each entry to each child under its key;
any other value is delivered bare (input name `None`). -/
def propagate (outputs : List String) : RunResult V → List (String × Option String × V)
  | .pyNone => []
  | .pyList items => outputs.flatMap (fun c => items.map (fun i => (c, some i.1, i.2)))
  | .pyDict entries => outputs.flatMap (fun c => entries.map (fun e => (c, some e.1, e.2)))
  | .bare v => outputs.map (fun c => (c, none, v))

/-- What one call to `run_node` did: the buffer state at the moment the
call leaves the locked/clearing section (after the store, and after the
`clear` when the node executed), the argument `run` was invoked with
(`none` when the node did not execute; `some none` models `run(None)`),
and the propagation calls issued afterwards. -/
structure StepOut (V : Type) where
  buf : Buffers V
  runCall : Option (Option (List (String × V)))
  calls : List (String × Option String × V)

/-- One call of `PipelineEngine.run_node(node, input_name, input_value)`
(lines 30-87), with the recursive propagation calls recorded rather than
performed.  Note line 55: `node.run(run_inputs if required else None)` —
a node whose `required_inputs` is absent or empty is always invoked with
`None`, even though `run_inputs` was computed on line 40. -/
def run_node_step (node : Node V) (buf : Buffers V)
    (input_name : Option String) (input_value : V) : StepOut V :=
  let buf1 := storePhase buf node.name input_name input_value
  if falsyReq node.required_inputs then
    let result := node.run none
    let buf2 := clearPhase buf1 node.name
    { buf := buf2, runCall := some none, calls := propagate node.outputs result }
  else
    let req := node.required_inputs.getD []
    if req.all (fun k => (buf1 node.name k).isSome) then
      let run_inputs := req.filterMap (fun k => (buf1 node.name k).map (fun v => (k, v)))
      let result := node.run (some run_inputs)
      let buf2 := clearPhase buf1 node.name
      { buf := buf2, runCall := some (some run_inputs), calls := propagate node.outputs result }
    else
      { buf := buf1, runCall := none, calls := [] }

/-- Lines 126-132 of `PipelineEngine.run` (the `wait=True` finalize
phase): walk the nodes, call `finalize` on each node exposing it, and
when its result is truthy (a non-empty dict) deliver every entry to
every child.  Returns the list of nodes whose `finalize` was called
and the list of `run_node(child, k, v)` deliveries issued. -/
def finalize_phase : List (Node V) → List String × List (String × String × V)
  | [] => ([], [])
  | n :: rest =>
    let tail := finalize_phase rest
    match n.finalize with
    | none => tail
    | some ret =>
      let ds :=
        match ret with
        | none => []
        | some entries =>
          if entries.isEmpty then []
          else n.outputs.flatMap (fun c => entries.map (fun e => (c, e.1, e.2)))
      (n.name :: tail.1, ds ++ tail.2)

/-! ### Loader: edge-type compatibility (`pipeline_loader.are_types_compatible`) -/

/-- A Python type annotation as used for `input_type` / `output_type`
declarations: `typing.Any`, a plain type (whose `get_origin` is `None`),
or a subscripted generic with an origin and argument list (for which
`get_origin` is truthy and `get_args` returns the arguments).  Absent
declarations (`getattr(..., None)`) are an `Option` around this type. -/
inductive PyType where
  | any : PyType
  | simple (name : String) : PyType
  | generic (origin : String) (args : List PyType) : PyType

mutual

/-- Decidable equality on `PyType` (Python `==` on type objects is
structural for `typing` generics). -/
def PyType.deq : (a b : PyType) → Decidable (a = b)
  | .any, .any => .isTrue rfl
  | .any, .simple _ => .isFalse (fun h => PyType.noConfusion h)
  | .any, .generic _ _ => .isFalse (fun h => PyType.noConfusion h)
  | .simple _, .any => .isFalse (fun h => PyType.noConfusion h)
  | .simple n₁, .simple n₂ =>
    if h : n₁ = n₂ then .isTrue (by rw [h])
    else .isFalse (by intro he; cases he; exact h rfl)
  | .simple _, .generic _ _ => .isFalse (fun h => PyType.noConfusion h)
  | .generic _ _, .any => .isFalse (fun h => PyType.noConfusion h)
  | .generic _ _, .simple _ => .isFalse (fun h => PyType.noConfusion h)
  | .generic o₁ a₁, .generic o₂ a₂ =>
    match PyType.deqList a₁ a₂ with
    | .isTrue ha =>
      if h : o₁ = o₂ then .isTrue (by rw [h, ha])
      else .isFalse (by intro he; cases he; exact h rfl)
    | .isFalse ha => .isFalse (by intro he; cases he; exact ha rfl)

/-- Decidable equality on lists of `PyType`. -/
def PyType.deqList : (l₁ l₂ : List PyType) → Decidable (l₁ = l₂)
  | [], [] => .isTrue rfl
  | [], _ :: _ => .isFalse (fun h => List.noConfusion h)
  | _ :: _, [] => .isFalse (fun h => List.noConfusion h)
  | a :: as, b :: bs =>
    match PyType.deq a b, PyType.deqList as bs with
    | .isTrue h₁, .isTrue h₂ => .isTrue (by rw [h₁, h₂])
    | .isFalse h₁, _ => .isFalse (by intro he; cases he; exact h₁ rfl)
    | _, .isFalse h₂ => .isFalse (by intro he; cases he; exact h₂ rfl)

end

instance : DecidableEq PyType := PyType.deq

/-- The `get_origin` block of `are_types_compatible` (lines 40-46):
two generics with the same truthy origin are compared argument-wise by
equality-or-`Any` over `zip`; everything else falls through to
incompatible. -/
def genericCompat : Option PyType → Option PyType → Bool
  | some (.generic origin_out args_out), some (.generic origin_in args_in) =>
    if origin_out = origin_in then
      (args_out.zip args_in).all (fun p => p.1 = p.2 || p.2 = .any || p.1 = .any)
    else false
  | _, _ => false

/-- Model of `PipelineLoader.are_types_compatible(output_type, input_type)`
(lines 33-48): `Any` on either side, an absent side, or equality is
compatible; otherwise the generic comparison decides. -/
def are_types_compatible (output_type input_type : Option PyType) : Bool :=
  if input_type = some .any || output_type = some .any then true
  else if output_type = none || input_type = none then true
  else if output_type = input_type then true
  else genericCompat output_type input_type

/-! ### Loader: environment-variable expansion (`resolve_env_vars`) -/

/-- A character matched by the regex class `\w`. -/
def isWordChar (c : Char) : Bool := c.isAlphanum || c = '_'

/-- The regex scan of the loader, a model of Python re.findall with the
token pattern (dollar, open brace, word characters, close brace):
scan left to right; at each opening
try to read a non-empty run of word characters followed by `}`; on a
match record the name and resume after the `}`, otherwise advance one
character.  Fuel-indexed (each step consumes at least one character). -/
def findTokensAux : Nat → List Char → List (List Char)
  | 0, _ => []
  | _ + 1, [] => []
  | fuel + 1, '$' :: '\x7b' :: rest =>
    let w := rest.takeWhile isWordChar
    let r := rest.dropWhile isWordChar
    if w.isEmpty then findTokensAux fuel ('\x7b' :: rest)
    else
      match r with
      | '\x7d' :: r' => w :: findTokensAux fuel r'
      | _ => findTokensAux fuel ('\x7b' :: rest)
  | fuel + 1, _ :: rest => findTokensAux fuel rest

/-- All `${NAME}` tokens of a string, in order of appearance. -/
def findTokens (s : List Char) : List (List Char) :=
  findTokensAux (s.length + 1) s

/-- The literal text `${var}`. -/
def tokenText (var : List Char) : List Char := '$' :: '\x7b' :: (var ++ ['\x7d'])

/-- Python `str.replace(pat, repl)`: replace every (leftmost,
non-overlapping) occurrence of `pat`.  Fuel-indexed; `pat` is always a
non-empty `${NAME}` literal here. -/
def replaceAllAux (pat repl : List Char) : Nat → List Char → List Char
  | 0, s => s
  | _ + 1, [] => []
  | fuel + 1, c :: rest =>
    if pat.isPrefixOf (c :: rest) && !pat.isEmpty then
      repl ++ replaceAllAux pat repl fuel ((c :: rest).drop pat.length)
    else
      c :: replaceAllAux pat repl fuel rest

/-- Replace every occurrence of `pat` in `s` by `repl`. -/
def replaceAll (pat repl s : List Char) : List Char :=
  replaceAllAux pat repl s.length s

/-- The process environment: variable name → value (`os.environ.get`). -/
def Env := List Char → Option (List Char)

/-- The `for var in matches:` loop of `resolve_env_vars` (lines 72-77):
look each matched name up in the environment, raising (`Except.error`
with the offending name) when it is undefined, otherwise replacing all
its `${var}` occurrences. -/
def substLoop (env : Env) : List (List Char) → List Char → Except (List Char) (List Char)
  | [], s => .ok s
  | var :: vars, s =>
    match env var with
    | none => .error var
    | some v => substLoop env vars (replaceAll (tokenText var) v s)

/-- Model of `resolve_env_vars` on a single string value (lines 70-78): find the
`${NAME}` tokens of the string as parsed, then run the substitution
loop over them. -/
def resolveString (env : Env) (s : List Char) : Except (List Char) (List Char) :=
  substLoop env (findTokens s) s

/-- A parsed configuration structure (the shapes `resolve_env_vars`
distinguishes): strings, non-string scalars, lists and dicts. -/
inductive ConfigValue where
  | str (s : List Char) : ConfigValue
  | scalar (n : Int) : ConfigValue
  | list (items : List ConfigValue) : ConfigValue
  | dict (entries : List (String × ConfigValue)) : ConfigValue

mutual

/-- Model of `PipelineLoader.resolve_env_vars` (lines 50-79): recurse through
dicts and lists, substitute in strings, return other scalars unchanged;
an undefined variable raises. -/
def resolveConfig (env : Env) : ConfigValue → Except (List Char) ConfigValue
  | .str s => (resolveString env s).map .str
  | .scalar n => .ok (.scalar n)
  | .list items => (resolveConfigList env items).map .list
  | .dict entries => (resolveConfigDict env entries).map .dict

/-- Element-wise resolution of a list (line 69). -/
def resolveConfigList (env : Env) : List ConfigValue → Except (List Char) (List ConfigValue)
  | [] => .ok []
  | v :: rest => do
    let v' ← resolveConfig env v
    let rest' ← resolveConfigList env rest
    return v' :: rest'

/-- Value-wise resolution of a dict (line 67). -/
def resolveConfigDict (env : Env) : List (String × ConfigValue) → Except (List Char) (List (String × ConfigValue))
  | [] => .ok []
  | (k, v) :: rest => do
    let v' ← resolveConfig env v
    let rest' ← resolveConfigDict env rest
    return (k, v') :: rest'

end

mutual

/-- All string values occurring anywhere in a configuration structure. -/
def configStrings : ConfigValue → List (List Char)
  | .str s => [s]
  | .scalar _ => []
  | .list items => configStringsList items
  | .dict entries => configStringsDict entries

/-- String values of a list of configuration values. -/
def configStringsList : List ConfigValue → List (List Char)
  | [] => []
  | v :: rest => configStrings v ++ configStringsList rest

/-- String values of a dict of configuration values. -/
def configStringsDict : List (String × ConfigValue) → List (List Char)
  | [] => []
  | (_, v) :: rest => configStrings v ++ configStringsDict rest

end

/-! ### Wiring (`NodesEngine.Node.add_output` / `add_input` and the
connection loop of the loader in `instantiate_nodes`) -/

/-- The mutable `inputs` / `outputs` lists of all nodes, indexed by the
unique node name (names identify objects: `node_map` is keyed by
name). -/
structure WireState where
  outs : String → List String
  ins : String → List String

/-- The wiring state of freshly constructed nodes: `Node.__init__` sets
`inputs = []` and `outputs = []`. -/
def initWire : WireState := { outs := fun _ => [], ins := fun _ => [] }

/-- Model of `Node.add_input(node)` (`NodesEngine.py` lines 38-46): append the
source to `self.inputs` unless already present. -/
def add_input (st : WireState) (selfName src : String) : WireState :=
  if src ∈ st.ins selfName then st
  else { st with ins := fun n => if n = selfName then st.ins selfName ++ [src] else st.ins n }

/-- Model of `Node.add_output(node)` (`NodesEngine.py` lines 48-57): if the
target is not yet in `self.outputs`, append it and register `self` as
an input of the target. -/
def add_output (st : WireState) (selfName dst : String) : WireState :=
  if dst ∈ st.outs selfName then st
  else
    let st' := { st with outs := fun n => if n = selfName then st.outs selfName ++ [dst] else st.outs n }
    add_input st' dst selfName

/-- The connection loop of `PipelineLoader.instantiate_nodes`
(lines 142-146): one `add_output` call per `(node, output_name)` pair
of the configuration. -/
def wire (edges : List (String × String)) (st : WireState) : WireState :=
  edges.foldl (fun s e => add_output s e.1 e.2) st

/-! ### Node registry (`NodesRegistry.get_node_class`) -/

/-- A Python module attribute: either a class (`isinstance(x, type)`)
or some other object, each carrying an identity. -/
inductive PyVal where
  | isClass (id : Nat) : PyVal
  | notClass (id : Nat) : PyVal
deriving DecidableEq

/-- Model of `isinstance(v, type)`. -/
def PyVal.isCls : PyVal → Bool
  | .isClass _ => true
  | .notClass _ => false

/-- The two module-level caches of `NodesRegistry`: `NODE_CLASSES`
(name → loaded class object) and `NODE_MODULES` (name → module path
from discovery). -/
structure Registry where
  node_classes : String → Option PyVal
  node_modules : String → Option String

/-- Errors `get_node_class` can raise: `ValueError` for an unsupported
type name, `TypeError` when the module attribute is not a class, and
the Python `AttributeError` when `getattr` finds no attribute. -/
inductive RegError where
  | unknownNodeType : RegError
  | invalidNodeBinding : RegError
  | attributeError : RegError
deriving DecidableEq

/-- The cache store `NODE_CLASSES[node_type] = cls` (line 72). -/
def cacheInsert (reg : Registry) (node_type : String) (cls : PyVal) : Registry :=
  { reg with node_classes := fun n => if n = node_type then some cls else reg.node_classes n }

/-- The slow path of `get_node_class` (lines 61-72): consult
`NODE_MODULES` (raise `UnknownNodeType` when absent), import the module
and fetch the attribute named `node_type` (`modules : module path →
attribute → value` models the loaded modules), check it is a class
(raise `InvalidNodeBinding` otherwise) and store it in `NODE_CLASSES`. -/
def load_node_class (modules : String → String → Option PyVal)
    (reg : Registry) (node_type : String) : Except RegError (PyVal × Registry) :=
  match reg.node_modules node_type with
  | none => .error .unknownNodeType
  | some module_name =>
    match modules module_name node_type with
    | none => .error .attributeError
    | some cls =>
      if cls.isCls then .ok (cls, cacheInsert reg node_type cls)
      else .error .invalidNodeBinding

/-- Model of `get_node_class(node_type)` (lines 53-74): return the cached class
when the cache holds a genuine class under that name, otherwise run the
slow path. -/
def get_node_class (modules : String → String → Option PyVal)
    (reg : Registry) (node_type : String) : Except RegError (PyVal × Registry) :=
  match reg.node_classes node_type with
  | some c => if c.isCls then .ok (c, reg) else load_node_class modules reg node_type
  | none => load_node_class modules reg node_type

/-! ### Concrete fixtures used to instantiate the theorems -/

/-- A node without `required_inputs` that returns a two-entry dict and
has two children (like `DummyStartNode` feeding two branches). -/
def nodeStart : Node Nat :=
  { name := "start", required_inputs := none, outputs := ["c1", "c2"],
    run := fun _ => .pyDict [("k1", 1), ("k2", 2)], defer_output := false,
    finalize := none }

/-- A join node requiring one input key (like the writers requiring
`data`). -/
def nodeJoin : Node Nat :=
  { name := "J", required_inputs := some ["a"], outputs := ["c1"],
    run := fun _ => .pyNone, defer_output := false, finalize := none }

/-- A node exposing `finalize` and returning a one-entry dict from it. -/
def nodeFin : Node Nat :=
  { name := "F", required_inputs := none, outputs := ["c1"],
    run := fun _ => .pyNone, defer_output := true,
    finalize := some (some [("k", 7)]) }

/-- A node without a `finalize` attribute. -/
def nodeNoFin : Node Nat :=
  { name := "G", required_inputs := none, outputs := [],
    run := fun _ => .pyNone, defer_output := false, finalize := none }

/-- A registry state with one discovered module and an empty class
cache. -/
def regStart : Registry :=
  { node_classes := fun _ => none,
    node_modules := fun n => if n = "T" then some "mod.path" else none }

/-- Loaded modules for the registry fixture: `mod.path` exposes the
class `T`. -/
def modulesFix : String → String → Option PyVal :=
  fun m a => if m = "mod.path" && a = "T" then some (.isClass 0) else none

/-- The environment used in the expansion counterexample: `FOO` is
defined and its value itself contains a `${BAR}` token. -/
def envFixture : Env :=
  fun v => if v = ['F', 'O', 'O'] then some (tokenText ['B', 'A', 'R']) else none

/-! ## Theorems about the execution engine -/

section EngineTheorems

variable {V : Type}

theorem falsyReq_some_ne_nil {req : List String} (hne : req ≠ []) :
    falsyReq (some req) = false := by
  cases req with
  | nil => exact absurd rfl hne
  | cons a l => rfl

/-- On the `required_inputs` path, `run_node_step` is the readiness
test followed by either the execute-and-clear step or a plain return. -/
theorem run_node_step_required (node : Node V) (buf : Buffers V)
    (iname : Option String) (ival : V) (req : List String)
    (hreq : node.required_inputs = some req) (hne : req ≠ []) :
    run_node_step node buf iname ival =
      (if req.all (fun k => (storePhase buf node.name iname ival node.name k).isSome) then
        { buf := clearPhase (storePhase buf node.name iname ival) node.name,
          runCall := some (some (req.filterMap (fun k =>
            (storePhase buf node.name iname ival node.name k).map (fun v => (k, v))))),
          calls := propagate node.outputs (node.run (some (req.filterMap (fun k =>
            (storePhase buf node.name iname ival node.name k).map (fun v => (k, v)))))) }
      else
        { buf := storePhase buf node.name iname ival, runCall := none, calls := [] }) := by
  unfold run_node_step
  rw [hreq, falsyReq_some_ne_nil hne]
  simp

theorem map_fst_filterMap_of_isSome (req : List String) (f : String → Option V)
    (h : ∀ k ∈ req, (f k).isSome) :
    (req.filterMap (fun k => (f k).map (fun v => (k, v)))).map Prod.fst = req := by
  induction req with
  | nil => rfl
  | cons a as ih =>
    obtain ⟨v, hv⟩ := Option.isSome_iff_exists.mp (h a (by simp))
    simp only [List.filterMap_cons, hv, Option.map_some', List.map_cons]
    exact congrArg (a :: ·) (ih (fun k hk => h k (by simp [hk])))

theorem mem_filterMap_lookup (req : List String) (f : String → Option V)
    (k : String) (v : V) :
    (k, v) ∈ req.filterMap (fun k' => (f k').map (fun w => (k', w)))
      ↔ k ∈ req ∧ f k = some v := by
  simp only [List.mem_filterMap, Option.map_eq_some']
  constructor
  · rintro ⟨a, ha, w, hw, heq⟩
    cases heq
    exact ⟨ha, hw⟩
  · rintro ⟨hk, hv⟩
    exact ⟨k, hk, v, hv, rfl⟩

/-- Claim C1: for a node with a non-empty `required_inputs` list `req`,
`run` is invoked exactly when every key of `req` is present in the
buffer of the node after the delivery is stored; the argument handed to
`run` is precisely the mapping `k ↦ buffer[k]` over `req` (its keys are
`req` in order and its entries are the buffered bindings); a delivery
that leaves some key of `req` absent returns without executing,
leaving the stored buffer and issuing no propagation. -/
theorem C1_required_inputs_readiness (node : Node V) (buf : Buffers V)
    (iname : Option String) (ival : V) (req : List String)
    (hreq : node.required_inputs = some req) (hne : req ≠ []) :
    ((run_node_step node buf iname ival).runCall.isSome = true
        ↔ ∀ k ∈ req, (storePhase buf node.name iname ival node.name k).isSome = true)
    ∧ (∀ args, (run_node_step node buf iname ival).runCall = some args →
        ∃ l, args = some l ∧ l.map Prod.fst = req
          ∧ ∀ k v, (k, v) ∈ l ↔ k ∈ req ∧
              storePhase buf node.name iname ival node.name k = some v)
    ∧ (¬ (∀ k ∈ req, (storePhase buf node.name iname ival node.name k).isSome = true) →
        run_node_step node buf iname ival
          = { buf := storePhase buf node.name iname ival, runCall := none, calls := [] }) := by
  rw [run_node_step_required node buf iname ival req hreq hne]
  by_cases hall : ∀ k ∈ req, (storePhase buf node.name iname ival node.name k).isSome = true
  · have hb : req.all (fun k => (storePhase buf node.name iname ival node.name k).isSome) = true :=
      List.all_eq_true.mpr hall
    rw [if_pos hb]
    refine ⟨by simpa using hall, ?_, fun hc => absurd hall hc⟩
    intro args hargs
    refine ⟨req.filterMap (fun k =>
      (storePhase buf node.name iname ival node.name k).map (fun v => (k, v))), ?_, ?_, ?_⟩
    · exact (Option.some.injEq _ _ ▸ hargs).symm
    · exact map_fst_filterMap_of_isSome req _ hall
    · intro k v
      exact mem_filterMap_lookup req _ k v
  · have hb : ¬ (req.all (fun k => (storePhase buf node.name iname ival node.name k).isSome) = true) :=
      fun h => hall (List.all_eq_true.mp h)
    rw [if_neg hb]
    refine ⟨iff_of_false (by simp) hall, ?_, fun _ => rfl⟩
    intro args hargs
    exact absurd hargs (by simp)

/-- Claim C1 witness: delivering key `a` to the join fixture on empty
buffers makes it execute. -/
theorem C1_witness :
    (run_node_step nodeJoin (emptyBuffers Nat) (some "a") 5).runCall.isSome = true :=
  (C1_required_inputs_readiness nodeJoin (emptyBuffers Nat) (some "a") 5 ["a"]
    rfl (by decide)).1.mpr (by decide)

/-- Claim C2 (code bug): a delivery with key `data` and value `7` to a
node without `required_inputs` invokes `run` with Python `None`
(`run_node_step` records `some none`: `run` was called, its argument
was `None`), not with the one-entry mapping `[("data", 7)]` the
specification promises — `PipelineEngine.py` line 55 discards the
`run_inputs` computed on line 40. -/
theorem C2_keyed_delivery_runs_with_none :
    (run_node_step nodeStart (emptyBuffers Nat) (some "data") 7).runCall = some none
    ∧ (run_node_step nodeStart (emptyBuffers Nat) (some "data") 7).runCall
        ≠ some (some [("data", 7)]) := by
  exact ⟨rfl, by decide⟩

/-- Claim C3: an execution whose `run` returns a dict of `n` entries on
a node with `m` children issues exactly `m * n` propagation calls, one
`(child, key, value)` delivery per entry per child. -/
theorem C3_mapping_result_dispatch (node : Node V) (buf : Buffers V)
    (iname : Option String) (ival : V) (args : Option (List (String × V)))
    (entries : List (String × V))
    (hexec : (run_node_step node buf iname ival).runCall = some args)
    (hres : node.run args = .pyDict entries) :
    (run_node_step node buf iname ival).calls.length
        = node.outputs.length * entries.length
    ∧ ∀ d, d ∈ (run_node_step node buf iname ival).calls
        ↔ ∃ c ∈ node.outputs, ∃ p ∈ entries, d = (c, some p.1, p.2) := by
  have hc : (run_node_step node buf iname ival).calls
      = propagate node.outputs (RunResult.pyDict entries) := by
    unfold run_node_step at hexec ⊢
    by_cases hf : falsyReq node.required_inputs = true
    · simp only [hf, if_true] at hexec ⊢
      have : args = none := by simpa using hexec.symm
      subst this
      rw [hres]
    · simp only [hf] at hexec ⊢
      by_cases hb : (node.required_inputs.getD []).all
          (fun k => (storePhase buf node.name iname ival node.name k).isSome) = true
      · simp only [hb, if_true] at hexec ⊢
        have : args = some ((node.required_inputs.getD []).filterMap (fun k =>
            (storePhase buf node.name iname ival node.name k).map (fun v => (k, v)))) := by
          simpa using hexec.symm
        subst this
        rw [hres]
        simp
      · simp only [hb] at hexec ⊢
        simp at hexec
  rw [hc]
  constructor
  · have hlen : ∀ outs : List String,
        (outs.flatMap (fun c => entries.map (fun e => (c, some e.1, e.2)))).length
          = outs.length * entries.length := by
      intro outs
      induction outs with
      | nil => simp
      | cons c cs ih => simp [List.flatMap_cons, ih, Nat.succ_mul, Nat.add_comm]
    simpa [propagate] using hlen node.outputs
  · intro d
    simp only [propagate, List.mem_flatMap, List.mem_map]
    constructor
    · rintro ⟨c, hc', p, hp, rfl⟩
      exact ⟨c, hc', p, hp, rfl⟩
    · rintro ⟨c, hc', p, hp, rfl⟩
      exact ⟨c, hc', p, hp, rfl⟩

/-- Claim C3 witness: the start fixture (two children, dict of two
entries) issues four deliveries. -/
theorem C3_witness :
    (run_node_step nodeStart (emptyBuffers Nat) none 0).calls.length
      = nodeStart.outputs.length * [("k1", (1 : Nat)), ("k2", 2)].length :=
  (C3_mapping_result_dispatch nodeStart (emptyBuffers Nat) none 0 none
    [("k1", 1), ("k2", 2)] rfl rfl).1

/-- Claim C8: whenever a delivery makes the node execute (its `run` was
invoked), the input buffer of that node is empty immediately afterwards. -/
theorem C8_buffer_empty_after_execution (node : Node V) (buf : Buffers V)
    (iname : Option String) (ival : V) (k : String)
    (h : (run_node_step node buf iname ival).runCall.isSome = true) :
    (run_node_step node buf iname ival).buf node.name k = none := by
  unfold run_node_step at h ⊢
  by_cases hf : falsyReq node.required_inputs = true
  · simp only [hf, if_true]
    simp [clearPhase]
  · simp only [hf] at h ⊢
    by_cases hb : (node.required_inputs.getD []).all
        (fun k => (storePhase buf node.name iname ival node.name k).isSome) = true
    · simp only [hb, if_true]
      simp [clearPhase]
    · simp only [hb] at h
      simp at h

/-- Claim C8 witness: after the start fixture executes, its buffer has
no entry under key `x`. -/
theorem C8_witness :
    (run_node_step nodeStart (emptyBuffers Nat) none 0).buf nodeStart.name "x" = none :=
  C8_buffer_empty_after_execution nodeStart (emptyBuffers Nat) none 0 "x" (by decide)

/-- Claim C10: a delivery with a null key to a node with a non-empty
`required_inputs` list stores nothing in any buffer, and when some
required key is missing from the buffer of the node, the node is not
executed, no propagation is issued, and every buffer is left exactly as
it was. -/
theorem C10_bare_delivery_discarded (node : Node V) (buf : Buffers V) (ival : V)
    (req : List String) (hreq : node.required_inputs = some req) (hne : req ≠ [])
    (hmiss : ∃ k ∈ req, buf node.name k = none) :
    (∀ n k, storePhase buf node.name none ival n k = buf n k)
    ∧ (run_node_step node buf none ival).runCall = none
    ∧ (run_node_step node buf none ival).calls = []
    ∧ (∀ n k, (run_node_step node buf none ival).buf n k = buf n k) := by
  have hstep := run_node_step_required node buf none ival req hreq hne
  have hb : ¬ (req.all (fun k => (storePhase buf node.name none ival node.name k).isSome) = true) := by
    intro h
    obtain ⟨k, hk, hnone⟩ := hmiss
    have := List.all_eq_true.mp h k hk
    rw [show storePhase buf node.name none ival = buf from rfl, hnone] at this
    simp at this
  rw [if_neg hb] at hstep
  rw [hstep]
  exact ⟨fun n k => rfl, rfl, rfl, fun n k => rfl⟩

/-- Claim C10 witness: a bare delivery to the join fixture on empty
buffers does not execute it. -/
theorem C10_witness :
    (run_node_step nodeJoin (emptyBuffers Nat) none 9).runCall = none :=
  (C10_bare_delivery_discarded nodeJoin (emptyBuffers Nat) 9 ["a"] rfl (by decide)
    ⟨"a", by decide, rfl⟩).2.1

end EngineTheorems

/-! ## Theorems about the finalize phase -/

section FinalizeTheorems

variable {V : Type}

/-- Claim C4: over a node list with distinct names (the values of the
name-keyed `nodes` dict of the engine), the finalize phase calls `finalize`
exactly once on every node exposing it and never on a node that does
not, and for every node whose `finalize` returned a mapping it delivers
each entry of the mapping to each child of the node. -/
theorem C4_finalize_phase (nodes : List (Node V))
    (hnd : (nodes.map (fun n => n.name)).Nodup) :
    (∀ n ∈ nodes, (finalize_phase nodes).1.count n.name
        = if n.finalize.isSome then 1 else 0)
    ∧ (∀ nm ∈ (finalize_phase nodes).1,
        ∃ n ∈ nodes, n.name = nm ∧ n.finalize.isSome = true)
    ∧ (∀ n ∈ nodes, ∀ entries, n.finalize = some (some entries) →
        ∀ c ∈ n.outputs, ∀ p ∈ entries,
          (c, p.1, p.2) ∈ (finalize_phase nodes).2) := by
  induction nodes with
  | nil =>
    exact ⟨fun n hn => absurd hn (List.not_mem_nil n),
      fun nm hnm => absurd hnm (List.not_mem_nil nm),
      fun n hn => absurd hn (List.not_mem_nil n)⟩
  | cons m rest ih =>
    rw [List.map_cons, List.nodup_cons] at hnd
    obtain ⟨hm, hrest⟩ := hnd
    obtain ⟨ihc, ihm, ihd⟩ := ih hrest
    have hmnotin : m.name ∉ (finalize_phase rest).1 := by
      intro hmem
      obtain ⟨n, hn, hname, _⟩ := ihm m.name hmem
      exact hm (hname ▸ List.mem_map_of_mem (fun x => x.name) hn)
    have hnamene : ∀ n ∈ rest, n.name ≠ m.name := by
      intro n hn h
      exact hm (h ▸ List.mem_map_of_mem (fun x => x.name) hn)
    cases hfin : m.finalize with
    | none =>
      refine ⟨?_, ?_, ?_⟩
      · intro n hn
        rcases List.mem_cons.mp hn with rfl | hn'
        · simp [finalize_phase, hfin, List.count_eq_zero.mpr hmnotin]
        · simpa [finalize_phase, hfin] using ihc n hn'
      · intro nm hnm
        simp only [finalize_phase, hfin] at hnm
        obtain ⟨n, hn, hname, hs⟩ := ihm nm hnm
        exact ⟨n, List.mem_cons_of_mem m hn, hname, hs⟩
      · intro n hn entries hent c hc p hp
        rcases List.mem_cons.mp hn with rfl | hn'
        · rw [hfin] at hent; cases hent
        · simpa [finalize_phase, hfin] using ihd n hn' entries hent c hc p hp
    | some ret =>
      refine ⟨?_, ?_, ?_⟩
      · intro n hn
        rcases List.mem_cons.mp hn with rfl | hn'
        · simp [finalize_phase, hfin, List.count_cons_self,
            List.count_eq_zero.mpr hmnotin]
        · rw [show n.finalize.isSome = n.finalize.isSome from rfl]
          simp only [finalize_phase, hfin]
          rw [List.count_cons_of_ne (hnamene n hn')]
          exact ihc n hn'
      · intro nm hnm
        simp only [finalize_phase, hfin, List.mem_cons] at hnm
        rcases hnm with rfl | hnm'
        · exact ⟨m, List.mem_cons_self m rest, rfl, by rw [hfin]; rfl⟩
        · obtain ⟨n, hn, hname, hs⟩ := ihm nm hnm'
          exact ⟨n, List.mem_cons_of_mem m hn, hname, hs⟩
      · intro n hn entries hent c hc p hp
        rcases List.mem_cons.mp hn with rfl | hn'
        · have hret : ret = some entries := by
            rw [hfin] at hent
            exact Option.some_injective _ hent
          subst hret
          have hne : entries.isEmpty = false := by
            cases entries with
            | nil => exact absurd hp (List.not_mem_nil p)
            | cons a l => rfl
          simp only [finalize_phase, hfin, hne]
          refine List.mem_append.mpr (Or.inl ?_)
          simp only [Bool.false_eq_true, if_false, List.mem_flatMap, List.mem_map]
          exact ⟨c, hc, p, hp, rfl⟩
        · have := ihd n hn' entries hent c hc p hp
          simp only [finalize_phase, hfin]
          cases ret with
          | none => simpa using this
          | some entries' => exact List.mem_append.mpr (Or.inr this)

/-- Claim C4 witness: in the fixture list, the `finalize` of the node
exposing it is invoked exactly once. -/
theorem C4_witness :
    (finalize_phase [nodeFin, nodeNoFin]).1.count nodeFin.name = 1 :=
  ((C4_finalize_phase [nodeFin, nodeNoFin] (by decide)).1 nodeFin
    (List.mem_cons_self nodeFin [nodeNoFin])).trans (by decide)

end FinalizeTheorems

/-! ## Theorems about wiring -/

/-- Edge symmetry holds in a wiring state when membership in `outputs`
and `inputs` mirror each other for every ordered pair of names. -/
def EdgeSym (st : WireState) : Prop :=
  ∀ a b : String, b ∈ st.outs a ↔ a ∈ st.ins b

theorem mem_ins_add_input (st : WireState) (selfName src b c : String) :
    c ∈ (add_input st selfName src).ins b
      ↔ c ∈ st.ins b ∨ (src ∉ st.ins selfName ∧ b = selfName ∧ c = src) := by
  unfold add_input
  by_cases hin : src ∈ st.ins selfName
  · rw [if_pos hin]
    simp [hin]
  · rw [if_neg hin]
    by_cases hb : b = selfName
    · subst hb
      simp [hin]
    · simp [hb, Ne.symm, fun h => hb h]

theorem outs_add_input (st : WireState) (selfName src : String) :
    (add_input st selfName src).outs = st.outs := by
  unfold add_input
  by_cases hin : src ∈ st.ins selfName
  · rw [if_pos hin]
  · rw [if_neg hin]

theorem mem_outs_add_output (st : WireState) (x y a c : String) :
    c ∈ (add_output st x y).outs a ↔ c ∈ st.outs a ∨ (a = x ∧ c = y) := by
  unfold add_output
  by_cases hxy : y ∈ st.outs x
  · rw [if_pos hxy]
    constructor
    · exact Or.inl
    · rintro (h | ⟨rfl, rfl⟩)
      · exact h
      · exact hxy
  · rw [if_neg hxy]
    rw [show (add_input { st with outs := fun n => if n = x then st.outs x ++ [y] else st.outs n } y x).outs
        = fun n => if n = x then st.outs x ++ [y] else st.outs n from outs_add_input _ y x]
    by_cases ha : a = x
    · subst ha
      simp [List.mem_append]
    · simp [ha]

theorem mem_ins_add_output (st : WireState) (x y b c : String) :
    c ∈ (add_output st x y).ins b
      ↔ c ∈ st.ins b ∨ (y ∉ st.outs x ∧ b = y ∧ c = x) := by
  unfold add_output
  by_cases hxy : y ∈ st.outs x
  · rw [if_pos hxy]
    constructor
    · exact Or.inl
    · rintro (h | ⟨hny, _, _⟩)
      · exact h
      · exact absurd hxy hny
  · rw [if_neg hxy]
    rw [mem_ins_add_input]
    simp only [hxy, not_false_iff, true_and]
    constructor
    · rintro (h | ⟨_, rfl, rfl⟩)
      · exact Or.inl h
      · exact Or.inr ⟨rfl, rfl⟩
    · rintro (h | ⟨rfl, rfl⟩)
      · exact Or.inl h
      · by_cases hin : c ∈ st.ins b
        · exact Or.inl hin
        · exact Or.inr ⟨hin, rfl, rfl⟩

theorem edgeSym_add_output (st : WireState) (x y : String) (h : EdgeSym st) :
    EdgeSym (add_output st x y) := by
  intro a b
  rw [mem_outs_add_output, mem_ins_add_output, h a b]
  constructor
  · rintro (hin | ⟨rfl, rfl⟩)
    · exact Or.inl hin
    · by_cases hxy : b ∈ st.outs a
      · exact Or.inl ((h a b).mp hxy)
      · exact Or.inr ⟨hxy, rfl, rfl⟩
  · rintro (hin | ⟨_, rfl, rfl⟩)
    · exact Or.inl hin
    · exact Or.inr ⟨rfl, rfl⟩

/-- Claim C7: after wiring any list of configuration edges onto freshly
constructed nodes, membership is mutual for every ordered pair of
nodes: `B ∈ A.outputs` exactly when `A ∈ B.inputs`. -/
theorem C7_edge_symmetry (edges : List (String × String)) :
    ∀ a b : String, b ∈ (wire edges initWire).outs a ↔ a ∈ (wire edges initWire).ins b := by
  have hinit : EdgeSym initWire := by
    intro a b
    simp [initWire]
  have hfold : ∀ (es : List (String × String)) (st : WireState),
      EdgeSym st → EdgeSym (wire es st) := by
    intro es
    induction es with
    | nil => exact fun st h => h
    | cons e rest ih =>
      intro st h
      exact ih (add_output st e.1 e.2) (edgeSym_add_output st e.1 e.2 h)
  exact hfold edges initWire hinit

/-! ## Theorems about the node registry -/

/-- Claim C9: with a well-formed class cache (every cached value is a
class — an invariant of the registry, since the cache is only written after
the `isinstance` check), resolution fails with `UnknownNodeType`
exactly when the name is absent from both the class cache and the
module map; a successful resolution returns a class, caches it under
the name (preserving well-formedness), and resolving the same name
again returns that cached class and the same state; and when the cache
misses and the looked-up module attribute is not a class, resolution
fails with `InvalidNodeBinding`. -/
theorem C9_registry_resolution (modules : String → String → Option PyVal)
    (reg : Registry) (node_type : String)
    (hwf : ∀ n c, reg.node_classes n = some c → c.isCls = true) :
    ((get_node_class modules reg node_type = .error .unknownNodeType)
        ↔ (reg.node_classes node_type = none ∧ reg.node_modules node_type = none))
    ∧ (∀ c reg', get_node_class modules reg node_type = .ok (c, reg') →
        c.isCls = true
        ∧ reg'.node_classes node_type = some c
        ∧ (∀ n c', reg'.node_classes n = some c' → c'.isCls = true)
        ∧ get_node_class modules reg' node_type = .ok (c, reg'))
    ∧ (∀ m cls, reg.node_classes node_type = none →
        reg.node_modules node_type = some m →
        modules m node_type = some cls → cls.isCls = false →
        get_node_class modules reg node_type = .error .invalidNodeBinding) := by
  cases h1 : reg.node_classes node_type with
  | some c =>
    have hcls : c.isCls = true := hwf node_type c h1
    have hget : get_node_class modules reg node_type = .ok (c, reg) := by
      simp [get_node_class, h1, hcls]
    refine ⟨?_, ?_, ?_⟩
    · rw [hget]
      exact iff_of_false (by simp) (by rintro ⟨hn, _⟩; cases hn)
    · intro c' reg' hok
      rw [hget] at hok
      have hc : c' = c ∧ reg' = reg := by
        simp only [Except.ok.injEq, Prod.mk.injEq] at hok
        exact ⟨hok.1.symm, hok.2.symm⟩
      obtain ⟨rfl, rfl⟩ := hc
      exact ⟨hcls, h1, hwf, hget⟩
    · intro m cls hn
      cases hn
  | none =>
    have hget : get_node_class modules reg node_type
        = load_node_class modules reg node_type := by
      simp [get_node_class, h1]
    cases h2 : reg.node_modules node_type with
    | none =>
      have hload : load_node_class modules reg node_type = .error .unknownNodeType := by
        simp [load_node_class, h2]
      refine ⟨?_, ?_, ?_⟩
      · rw [hget, hload]
        exact iff_of_true rfl ⟨rfl, rfl⟩
      · intro c reg' hok
        rw [hget, hload] at hok
        cases hok
      · intro m cls _ hm
        cases hm
    | some m =>
      cases h3 : modules m node_type with
      | none =>
        have hload : load_node_class modules reg node_type = .error .attributeError := by
          simp [load_node_class, h2, h3]
        refine ⟨?_, ?_, ?_⟩
        · rw [hget, hload]
          exact iff_of_false (by simp) (by rintro ⟨_, hn⟩; cases hn)
        · intro c reg' hok
          rw [hget, hload] at hok
          cases hok
        · intro m' cls _ hm hcls
          injection hm with hm'
          subst hm'
          rw [h3] at hcls
          cases hcls
      | some cls =>
        cases hcl : cls.isCls with
        | true =>
          have hload : load_node_class modules reg node_type
              = .ok (cls, cacheInsert reg node_type cls) := by
            simp [load_node_class, h2, h3, hcl]
          refine ⟨?_, ?_, ?_⟩
          · rw [hget, hload]
            exact iff_of_false (by simp) (by rintro ⟨_, hn⟩; cases hn)
          · intro c reg' hok
            rw [hget, hload] at hok
            have hc : c = cls ∧ reg' = cacheInsert reg node_type cls := by
              simp only [Except.ok.injEq, Prod.mk.injEq] at hok
              exact ⟨hok.1.symm, hok.2.symm⟩
            obtain ⟨rfl, rfl⟩ := hc
            have hstored : (cacheInsert reg node_type c).node_classes node_type = some c := by
              simp [cacheInsert]
            refine ⟨hcl, hstored, ?_, ?_⟩
            · intro n c' hn
              by_cases hnt : n = node_type
              · subst hnt
                rw [hstored] at hn
                cases hn
                exact hcl
              · simp only [cacheInsert, if_neg hnt] at hn
                exact hwf n c' hn
            · simp [get_node_class, hstored, hcl]
          · intro m' cls' _ hm hcls'
            injection hm with hm'
            subst hm'
            rw [h3] at hcls'
            injection hcls' with hc'
            subst hc'
            intro hfalse
            rw [hcl] at hfalse
            cases hfalse
        | false =>
          have hload : load_node_class modules reg node_type = .error .invalidNodeBinding := by
            simp [load_node_class, h2, h3, hcl]
          refine ⟨?_, ?_, ?_⟩
          · rw [hget, hload]
            exact iff_of_false (by simp) (by rintro ⟨_, hn⟩; cases hn)
          · intro c reg' hok
            rw [hget, hload] at hok
            cases hok
          · intro m' cls' _ _ _ _
            rw [hget, hload]

/-- Claim C9 witness: resolving `T` against the fixture registry
succeeds, returns a class, and caches it. -/
theorem C9_witness :
    get_node_class modulesFix regStart "T"
      = .ok (.isClass 0, cacheInsert regStart "T" (.isClass 0))
    ∧ (PyVal.isClass 0).isCls = true := by
  have h := (C9_registry_resolution modulesFix regStart "T"
    (fun n c hc => by simp [regStart] at hc)).2.1
  have hok : get_node_class modulesFix regStart "T"
      = .ok (.isClass 0, cacheInsert regStart "T" (.isClass 0)) := by
    simp [get_node_class, load_node_class, regStart, modulesFix, PyVal.isCls]
  exact ⟨hok, (h _ _ hok).1⟩

/-! ## Theorems about edge-type compatibility -/

/-- Claim C6: the compatibility predicate accepts exactly when a side
is absent, a side is `Any`, the two declared types are equal, or both
are generics of the same outer kind whose corresponding (zipped)
argument pairs are each equal or `Any` on either side; in every other
case it rejects. -/
theorem C6_type_compatibility (output_type input_type : Option PyType) :
    are_types_compatible output_type input_type = true
      ↔ (output_type = none ∨ input_type = none
        ∨ output_type = some .any ∨ input_type = some .any
        ∨ output_type = input_type
        ∨ ∃ k args_out args_in,
            output_type = some (.generic k args_out)
            ∧ input_type = some (.generic k args_in)
            ∧ ∀ p ∈ args_out.zip args_in, p.1 = p.2 ∨ p.1 = .any ∨ p.2 = .any) := by
  unfold are_types_compatible
  split_ifs with h1 h2 h3
  · simp only [Bool.or_eq_true, decide_eq_true_eq] at h1
    refine iff_of_true rfl ?_
    rcases h1 with h | h
    · exact Or.inr (Or.inr (Or.inr (Or.inl h)))
    · exact Or.inr (Or.inr (Or.inl h))
  · simp only [Bool.or_eq_true, decide_eq_true_eq] at h2
    refine iff_of_true rfl ?_
    rcases h2 with h | h
    · exact Or.inl h
    · exact Or.inr (Or.inl h)
  · exact iff_of_true rfl (Or.inr (Or.inr (Or.inr (Or.inr (Or.inl h3)))))
  · simp only [Bool.or_eq_true, decide_eq_true_eq, not_or] at h1 h2
    obtain ⟨hia, hoa⟩ := h1
    obtain ⟨hon, hin⟩ := h2
    rcases output_type with _ | t1
    · exact absurd rfl hon
    rcases input_type with _ | t2
    · exact absurd rfl hin
    rcases t1 with _ | n1 | ⟨k1, a1⟩
    · exact absurd rfl hoa
    · refine iff_of_false (by simp [genericCompat]) ?_
      rintro (h | h | h | h | h | ⟨k, a, b, he, _, _⟩)
      · exact Option.noConfusion h
      · exact Option.noConfusion h
      · exact hoa h
      · exact hia h
      · exact h3 h
      · rw [Option.some.injEq] at he
        exact PyType.noConfusion he
    · rcases t2 with _ | n2 | ⟨k2, a2⟩
      · exact absurd rfl hia
      · refine iff_of_false (by simp [genericCompat]) ?_
        rintro (h | h | h | h | h | ⟨k, a, b, _, he, _⟩)
        · exact Option.noConfusion h
        · exact Option.noConfusion h
        · exact hoa h
        · exact hia h
        · exact h3 h
        · rw [Option.some.injEq] at he
          exact PyType.noConfusion he
      · by_cases hk : k1 = k2
        · subst hk
          simp only [genericCompat, if_true]
          rw [List.all_eq_true]
          constructor
          · intro hall
            refine Or.inr (Or.inr (Or.inr (Or.inr (Or.inr ⟨k1, a1, a2, rfl, rfl, ?_⟩))))
            intro p hp
            have := hall p hp
            simp only [Bool.or_eq_true, decide_eq_true_eq] at this
            tauto
          · rintro (h | h | h | h | h | ⟨k, a, b, he1, he2, hc⟩)
            · exact Option.noConfusion h
            · exact Option.noConfusion h
            · exact absurd h hoa
            · exact absurd h hia
            · exact absurd h h3
            · rw [Option.some.injEq, PyType.generic.injEq] at he1 he2
              obtain ⟨rfl, rfl⟩ := he1
              obtain ⟨_, rfl⟩ := he2
              intro p hp
              simp only [Bool.or_eq_true, decide_eq_true_eq]
              rcases hc p hp with h | h | h
              · exact Or.inl (Or.inl h)
              · exact Or.inr h
              · exact Or.inl (Or.inr h)
        · simp only [genericCompat]
          rw [if_neg hk]
          refine iff_of_false (by simp) ?_
          rintro (h | h | h | h | h | ⟨k, a, b, he1, he2, _⟩)
          · exact Option.noConfusion h
          · exact Option.noConfusion h
          · exact absurd h hoa
          · exact absurd h hia
          · exact absurd h h3
          · rw [Option.some.injEq, PyType.generic.injEq] at he1 he2
            exact hk (he1.1.trans he2.1.symm)

/-! ## Theorems about environment-variable expansion -/

theorem exists_error_map {α β γ : Type} (f : α → β) (x : Except γ α) :
    (∃ e, x.map f = .error e) ↔ (∃ e, x = .error e) := by
  cases x with
  | error e => simp [Except.map]
  | ok a => simp [Except.map]

theorem exists_error_bind {α β γ : Type} (x : Except γ α) (g : α → Except γ β) :
    (∃ e, (x >>= g) = .error e)
      ↔ (∃ e, x = .error e) ∨ (∃ a, x = .ok a ∧ ∃ e, g a = .error e) := by
  cases x with
  | error e => simp [Bind.bind, Except.bind]
  | ok a => simp [Bind.bind, Except.bind]

/-- The substitution loop raises exactly when one of the matched
variable names is undefined in the environment (whatever the string
being rewritten is at that point). -/
theorem substLoop_error_iff (env : Env) (vars : List (List Char)) :
    ∀ s, (∃ e, substLoop env vars s = .error e) ↔ ∃ var ∈ vars, env var = none := by
  induction vars with
  | nil =>
    intro s
    simp [substLoop]
  | cons var vars ih =>
    intro s
    cases henv : env var with
    | none =>
      refine iff_of_true ⟨var, by simp [substLoop, henv]⟩ ⟨var, by simp, henv⟩
    | some v =>
      simp only [substLoop, henv]
      rw [ih]
      constructor
      · rintro ⟨w, hw, hn⟩
        exact ⟨w, List.mem_cons_of_mem _ hw, hn⟩
      · rintro ⟨w, hw, hn⟩
        rcases List.mem_cons.mp hw with rfl | hw'
        · rw [henv] at hn
          cases hn
        · exact ⟨w, hw', hn⟩

mutual

/-- Resolution raises exactly when some string value somewhere
in the structure contains a `${NAME}` token with `NAME` undefined. -/
theorem resolveConfig_error_iff (env : Env) : ∀ v : ConfigValue,
    (∃ e, resolveConfig env v = .error e)
      ↔ ∃ s ∈ configStrings v, ∃ var ∈ findTokens s, env var = none
  | .str s => by
    rw [show resolveConfig env (.str s) = (resolveString env s).map .str from rfl]
    rw [exists_error_map]
    unfold resolveString
    rw [substLoop_error_iff env (findTokens s) s]
    simp [configStrings]
  | .scalar n => by
    simp [resolveConfig, configStrings]
  | .list items => by
    rw [show resolveConfig env (.list items) = (resolveConfigList env items).map .list from rfl]
    rw [exists_error_map]
    rw [resolveConfigList_error_iff env items]
    rw [show configStrings (.list items) = configStringsList items from rfl]
  | .dict entries => by
    rw [show resolveConfig env (.dict entries) = (resolveConfigDict env entries).map .dict from rfl]
    rw [exists_error_map]
    rw [resolveConfigDict_error_iff env entries]
    rw [show configStrings (.dict entries) = configStringsDict entries from rfl]

/-- List version of `resolveConfig_error_iff`. -/
theorem resolveConfigList_error_iff (env : Env) : ∀ items : List ConfigValue,
    (∃ e, resolveConfigList env items = .error e)
      ↔ ∃ s ∈ configStringsList items, ∃ var ∈ findTokens s, env var = none
  | [] => by
    simp [resolveConfigList, configStringsList]
  | v :: rest => by
    have hv := resolveConfig_error_iff env v
    have hr := resolveConfigList_error_iff env rest
    simp only [resolveConfigList]
    rw [exists_error_bind]
    constructor
    · rintro (he | ⟨a, ha, he⟩)
      · obtain ⟨s, hs, hvar⟩ := hv.mp he
        exact ⟨s, by simp only [configStringsList, List.mem_append]; exact Or.inl hs, hvar⟩
      · rw [exists_error_bind] at he
        rcases he with he' | ⟨b, hb, e, hee⟩
        · obtain ⟨s, hs, hvar⟩ := hr.mp he'
          exact ⟨s, by simp only [configStringsList, List.mem_append]; exact Or.inr hs, hvar⟩
        · cases hee
    · rintro ⟨s, hs, hvar⟩
      rw [show configStringsList (v :: rest) = configStrings v ++ configStringsList rest from rfl,
        List.mem_append] at hs
      rcases hs with hs | hs
      · exact Or.inl (hv.mpr ⟨s, hs, hvar⟩)
      · cases hx : resolveConfig env v with
        | error e => exact Or.inl ⟨e, rfl⟩
        | ok a =>
          refine Or.inr ⟨a, rfl, ?_⟩
          rw [exists_error_bind]
          exact Or.inl (hr.mpr ⟨s, hs, hvar⟩)

/-- Dict version of `resolveConfig_error_iff`. -/
theorem resolveConfigDict_error_iff (env : Env) : ∀ entries : List (String × ConfigValue),
    (∃ e, resolveConfigDict env entries = .error e)
      ↔ ∃ s ∈ configStringsDict entries, ∃ var ∈ findTokens s, env var = none
  | [] => by
    simp [resolveConfigDict, configStringsDict]
  | (k, v) :: rest => by
    have hv := resolveConfig_error_iff env v
    have hr := resolveConfigDict_error_iff env rest
    simp only [resolveConfigDict]
    rw [exists_error_bind]
    constructor
    · rintro (he | ⟨a, ha, he⟩)
      · obtain ⟨s, hs, hvar⟩ := hv.mp he
        exact ⟨s, by simp only [configStringsDict, List.mem_append]; exact Or.inl hs, hvar⟩
      · rw [exists_error_bind] at he
        rcases he with he' | ⟨b, hb, e, hee⟩
        · obtain ⟨s, hs, hvar⟩ := hr.mp he'
          exact ⟨s, by simp only [configStringsDict, List.mem_append]; exact Or.inr hs, hvar⟩
        · cases hee
    · rintro ⟨s, hs, hvar⟩
      rw [show configStringsDict ((k, v) :: rest) = configStrings v ++ configStringsDict rest from rfl,
        List.mem_append] at hs
      rcases hs with hs | hs
      · exact Or.inl (hv.mpr ⟨s, hs, hvar⟩)
      · cases hx : resolveConfig env v with
        | error e => exact Or.inl ⟨e, rfl⟩
        | ok a =>
          refine Or.inr ⟨a, rfl, ?_⟩
          rw [exists_error_bind]
          exact Or.inl (hr.mpr ⟨s, hs, hvar⟩)

end

/-- Claim C5 (amended): phase-2 variable expansion raises an error
exactly when some string value of the parsed structure contains a
`${NAME}` token (as found by the scanner) whose `NAME` is undefined in
the process environment; in particular, when every referenced name is
defined it returns without error, with every string rewritten by the
substitution loop.  The substituted values may themselves introduce
`${...}` sequences, so a successful result is not guaranteed free of
such tokens — see the counterexample. -/
theorem C5_expansion_error_characterization (env : Env) (v : ConfigValue) :
    (∃ e, resolveConfig env v = .error e)
      ↔ ∃ s ∈ configStrings v, ∃ var ∈ findTokens s, env var = none :=
  resolveConfig_error_iff env v

/-- Claim C5 counterexample: with `FOO` defined as the literal text
`$\x7bBAR\x7d`, expanding the configuration string `$\x7bFOO\x7d`
succeeds — no error is raised, since `BAR` is never looked up — yet
the result still contains an unresolved `${NAME}` token (`BAR` is
undefined), contradicting the claim that a successful expansion leaves
no unresolved token in any string. -/
theorem C5_counterexample :
    resolveConfig envFixture (.str (tokenText ['F', 'O', 'O']))
      = .ok (.str (tokenText ['B', 'A', 'R']))
    ∧ findTokens (tokenText ['B', 'A', 'R']) = [['B', 'A', 'R']]
    ∧ envFixture ['B', 'A', 'R'] = none := by
  exact ⟨rfl, rfl, rfl⟩

end PipelineSpec
